import Mathlib

/-!
Verification of the PocketPulse utility library (date, format and validation
helpers) against its specification.  Python strings are modelled as `List Char`,
Python numbers (int/float/Decimal) as exact rationals `ℚ`, and datetimes either
as rational day counts (for duration arithmetic) or as calendar-field records
(for field-replacement arithmetic).  Functions that can raise are modelled with
`Option`, where `none` marks a raised exception.
-/

namespace PocketPulse

/-- Python whitespace set (ASCII fragment): space, tab, newline, carriage
return, vertical tab, form feed. -/
def isSpaceChar (c : Char) : Bool :=
  decide (c.toNat = 32 ∨ c.toNat = 9 ∨ c.toNat = 10 ∨ c.toNat = 13 ∨
    c.toNat = 11 ∨ c.toNat = 12)

/-- Python str.strip(): drop whitespace from both ends. -/
def strip (l : List Char) : List Char :=
  ((l.dropWhile isSpaceChar).reverse.dropWhile isSpaceChar).reverse

/-- Python str.lower() per character (ASCII fragment). -/
def toLowerC (c : Char) : Char :=
  if 65 ≤ c.toNat ∧ c.toNat ≤ 90 then Char.ofNat (c.toNat + 32) else c

/-- Python str.upper() per character (ASCII fragment). -/
def toUpperC (c : Char) : Char :=
  if 97 ≤ c.toNat ∧ c.toNat ≤ 122 then Char.ofNat (c.toNat - 32) else c

/-- Value of a list of decimal digit characters read left to right (most
significant first), as Python int() of the digit run. -/
def digitsVal (l : List Char) : ℕ :=
  l.foldl (fun a c => 10 * a + (c.toNat - 48)) 0

/-- Python round-half-to-even on a rational, as float round() behaves on exact
halves, used by round(x, 2). -/
def pyRound (x : ℚ) : ℤ :=
  let f := Int.floor x
  let r := x - f
  if r < 1/2 then f
  else if 1/2 < r then f + 1
  else if f % 2 = 0 then f else f + 1

/-- Python round(x, 2): round to two decimal digits. -/
def round2 (x : ℚ) : ℚ := (pyRound (x * 100) : ℚ) / 100

/-- Parse an unsigned float literal made of digits and at most one dot, as
Python float() accepts on strings containing only digits and dots: an integer
part and/or a fractional part, at least one digit overall. -/
def parseUnsignedFloat (l : List Char) : Option ℚ :=
  let intp := l.takeWhile Char.isDigit
  match l.dropWhile Char.isDigit with
  | [] => if intp.isEmpty then none else some (digitsVal intp)
  | '.' :: rest =>
      let fracp := rest.takeWhile Char.isDigit
      if (rest.dropWhile Char.isDigit).isEmpty ∧ (intp.isEmpty = false ∨ fracp.isEmpty = false) then
        some ((digitsVal intp : ℚ) + (digitsVal fracp : ℚ) / 10 ^ fracp.length)
      else none
  | _ => none

/-- Python float() on a string containing only digits, dots and minus signs
(the alphabet left by validate_amount's cleaning regex): an optional leading
minus, then an unsigned float literal. -/
def parseFloatChars (l : List Char) : Option ℚ :=
  match l with
  | '-' :: rest => (parseUnsignedFloat rest).map (fun q => -q)
  | _ => parseUnsignedFloat l

/-- Input to validate_amount: a string, or a number (Python int or float,
modelled exactly). -/
inductive AmountInput
  | str (s : List Char)
  | num (q : ℚ)

/-- Cleaning step of validate_amount's string branch: strip, then keep only
digits, dots and minus signs (re.sub removes every other character). -/
def cleanedOf (s : List Char) : List Char :=
  (strip s).filter (fun c => c.isDigit || c == '.' || c == '-')

/-- Shared tail of validate_amount (validation_utils.py lines 26-35): sign and
bound checks, then rounding to 2 decimal places. -/
def amountChecks (amount : ℚ) : Bool × Option ℚ × Option (List Char) :=
  if amount ≤ 0 then (false, none, some "Amount must be greater than zero".toList)
  else if 999999999 < amount then (false, none, some "Amount exceeds maximum limit".toList)
  else (true, some (round2 amount), none)

/-- Embedding of validate_amount (validation_utils.py lines 6-38).  The string
branch strips the input, keeps only digits, dots and minus signs (the regex
re.sub removes every other character), rejects an empty remainder, and parses
it as a float; a parse failure is the caught ValueError path. -/
def validate_amount : AmountInput → Bool × Option ℚ × Option (List Char)
  | .str s =>
      if (cleanedOf s).isEmpty then (false, none, some "Amount cannot be empty".toList)
      else
        match parseFloatChars (cleanedOf s) with
        | none => (false, none, some "Invalid amount format".toList)
        | some amount => amountChecks amount
  | .num q => amountChecks q

/-- Numeric value denoted by an input: the number itself, or the successful
float parse of the cleaned string. -/
def inputValue : AmountInput → Option ℚ
  | .str s => if (cleanedOf s).isEmpty then none else parseFloatChars (cleanedOf s)
  | .num q => some q

/-- Whitespace-run collapsing, re.sub of one or more whitespace characters by
a single space: the flag records being inside a run whose space was already
emitted. -/
def collapseWS : Bool → List Char → List Char
  | _, [] => []
  | inRun, c :: cs =>
      if isSpaceChar c then
        if inRun then collapseWS true cs else ' ' :: collapseWS true cs
      else c :: collapseWS false cs

/-- Embedding of validate_transaction_description (validation_utils.py lines
41-65): reject empty or whitespace-only, strip, check length in [3, 500],
collapse internal whitespace runs. -/
def validate_transaction_description (description : List Char) :
    Bool × Option (List Char) × Option (List Char) :=
  if description.isEmpty || (strip description).isEmpty then
    (false, none, some "Description cannot be empty".toList)
  else if (strip description).length < 3 then
    (false, none, some "Description must be at least 3 characters long".toList)
  else if 500 < (strip description).length then
    (false, none, some "Description cannot exceed 500 characters".toList)
  else (true, some (collapseWS false (strip description)), none)

/-- Parse an optionally signed digit run, as the exponent part of a Decimal
literal. -/
def parseSignedInt (l : List Char) : Option ℤ :=
  match l with
  | '-' :: r => if !r.isEmpty && r.all Char.isDigit then some (-(digitsVal r : ℤ)) else none
  | '+' :: r => if !r.isEmpty && r.all Char.isDigit then some ((digitsVal r : ℤ)) else none
  | _ => if !l.isEmpty && l.all Char.isDigit then some ((digitsVal l : ℤ)) else none

/-- Parse the tail after the coefficient of a Decimal literal: either nothing
(exponent 0) or an explicit e/E exponent. -/
def parseDecExponent (l : List Char) : Option ℤ :=
  match l with
  | [] => some 0
  | 'e' :: r => parseSignedInt r
  | 'E' :: r => parseSignedInt r
  | _ => none

/-- Parse an unsigned finite Decimal literal (Python decimal grammar without
underscores and special values): digits with an optional dot and fractional
digits, at least one digit overall, optional exponent.  Returns the
coefficient and the exponent reported by as_tuple(), namely the written
exponent minus the number of fractional digits. -/
def parseDecUnsigned (l : List Char) : Option (ℕ × ℤ) :=
  let intp := l.takeWhile Char.isDigit
  let rest1 := l.dropWhile Char.isDigit
  let fr : List Char × List Char :=
    match rest1 with
    | '.' :: r => (r.takeWhile Char.isDigit, r.dropWhile Char.isDigit)
    | _ => ([], rest1)
  if intp.isEmpty && fr.1.isEmpty then none
  else
    match parseDecExponent fr.2 with
    | none => none
    | some e => some (digitsVal intp * 10 ^ fr.1.length + digitsVal fr.1, e - fr.1.length)

/-- Parse a finite Decimal literal with optional sign, as Decimal(cleaned)
behaves on the comma-free cleaned string: the result is as_tuple(), a sign
flag (true for negative), a coefficient and an exponent. -/
def parseDecimal (l : List Char) : Option (Bool × ℕ × ℤ) :=
  match l with
  | '-' :: r => (parseDecUnsigned r).map (fun p => (true, p.1, p.2))
  | '+' :: r => (parseDecUnsigned r).map (fun p => (false, p.1, p.2))
  | _ => (parseDecUnsigned l).map (fun p => (false, p.1, p.2))

/-- Numeric value of a Decimal triple (sign, coefficient, exponent). -/
def decValue (t : Bool × ℕ × ℤ) : ℚ :=
  (if t.1 then -1 else 1) * (t.2.1 : ℚ) * (10 : ℚ) ^ t.2.2

/-- Cleaning of validate_currency_amount (validation_utils.py lines 240-246):
strip, drop the currency symbol when the string starts with it and strip
again, then delete every comma. -/
def cleanCurrency (sym s : List Char) : List Char :=
  let t := strip s
  let t2 := if sym.isPrefixOf t then strip (t.drop sym.length) else t
  t2.filter (fun c => c != ',')

/-- Embedding of validate_currency_amount (validation_utils.py lines 226-260):
reject empty, clean, parse as exact Decimal, require a positive value and an
exponent of at least -2, return the value.  A parse failure is the caught
InvalidOperation path. -/
def validate_currency_amount (amount_str : List Char)
    (sym : List Char := "Rs.".toList) : Bool × Option ℚ × Option (List Char) :=
  if amount_str.isEmpty || (strip amount_str).isEmpty then
    (false, none, some "Amount is required".toList)
  else
    match parseDecimal (cleanCurrency sym amount_str) with
    | none => (false, none, some "Invalid amount format".toList)
    | some t =>
        if decValue t ≤ 0 then
          (false, none, some "Amount must be greater than zero".toList)
        else if t.2.2 < -2 then
          (false, none, some "Amount cannot have more than 2 decimal places".toList)
        else (true, some (decValue t), none)

/-- The outcome-tuple invariant of the specification: the error message is
present exactly when the flag is false, the value exactly when it is true. -/
def outcomeInvariant {α : Type} (r : Bool × Option α × Option (List Char)) : Prop :=
  r.2.2.isSome = !r.1 ∧ r.2.1.isSome = r.1

/-- Microseconds in one day.  Python datetimes are modelled as integer
microsecond counts measured from a Monday-midnight epoch; Python datetime has
exactly microsecond resolution, so this model is exact. -/
def dayUs : ℤ := 86400000000

/-- Python datetime.weekday() in the microsecond-count model: the day number
(floor division, as dates extend to both sides of the epoch) modulo 7, with
0 = Monday through 6 = Sunday. -/
def weekdayOf (t : ℤ) : ℤ := t.fdiv dayUs % 7

/-- Python's substring test, pattern in text, tried at every suffix. -/
def isSubstring (pat : List Char) : List Char → Bool
  | [] => pat.isEmpty
  | c :: rest => pat.isPrefixOf (c :: rest) || isSubstring pat rest

/-- The literal-phrase stage of parse_natural_date (date_utils.py lines
18-34): lower-case and strip the input, then return the value of the first
entry of the relative_patterns dictionary, in insertion order, whose key is a
substring of the text; none when no key matches and the later stages run. -/
def relative_match (date_text : List Char) (reference_date : ℤ) : Option ℤ :=
  let text := strip (date_text.map toLowerC)
  if isSubstring "today".toList text then some reference_date
  else if isSubstring "yesterday".toList text then some (reference_date - dayUs)
  else if isSubstring "tomorrow".toList text then some (reference_date + dayUs)
  else if isSubstring "day before yesterday".toList text then
    some (reference_date - 2 * dayUs)
  else if isSubstring "day after tomorrow".toList text then
    some (reference_date + 2 * dayUs)
  else none

/-- Loop of calculate_business_days (date_utils.py lines 159-165): while the
current instant is not past the end, count it when its weekday is below 5 and
advance by one day.  The fuel argument bounds the number of iterations; the
fuel-exhausted base case returns what the failing loop test would. -/
def bdLoop : ℕ → ℤ → ℤ → ℕ
  | 0, _, _ => 0
  | fuel + 1, current, e =>
      if current ≤ e then
        (if weekdayOf current < 5 then 1 else 0) + bdLoop fuel (current + dayUs) e
      else 0

/-- Embedding of calculate_business_days (date_utils.py lines 148-167).  The
fuel covers every iteration whose test succeeds: iteration k runs at instant
start + k days, and k ≤ (end - start)/day whenever the test succeeds. -/
def calculate_business_days (start_date end_date : ℤ) : ℕ :=
  bdLoop (((end_date - start_date).fdiv dayUs).toNat + 1) start_date end_date

/-- Modelled from the claim's wording: the number of calendar days in the
inclusive range from start's day to end's day whose weekday is Monday-Friday,
independent of time-of-day components. -/
def calendar_business_days (start_date end_date : ℤ) : ℕ :=
  (List.range ((end_date.fdiv dayUs - start_date.fdiv dayUs).toNat + 1)).countP
    (fun k : ℕ => decide ((start_date.fdiv dayUs + (k : ℤ)) % 7 < 5))

/-- Embedding of format_phone_number (format_utils.py lines 263-288): empty
input maps to empty, otherwise all non-digit characters are dropped; 10
digits are formatted as the country code, a space, the first five digits, a
space and the last five; 11 digits starting with 0 drop the 0 and format the
same way; anything else returns the original input unchanged. -/
def format_phone_number (phone : List Char)
    (country_code : List Char := "+91".toList) : List Char :=
  if phone.isEmpty then []
  else
    let digits := phone.filter Char.isDigit
    if digits.length = 10 then
      country_code ++ ' ' :: (digits.take 5 ++ ' ' :: digits.drop 5)
    else if digits.length = 11 ∧ digits.head? = some '0' then
      country_code ++ ' ' :: ((digits.drop 1).take 5 ++ ' ' :: (digits.drop 1).drop 5)
    else phone

/-- Characters removed by sanitize_input's control-character regex:
0x00-0x08, 0x0B, 0x0C, 0x0E-0x1F and 0x7F. -/
def isControlRemoved (c : Char) : Bool :=
  decide (c.toNat ≤ 8 ∨ c.toNat = 11 ∨ c.toNat = 12 ∨
    (14 ≤ c.toNat ∧ c.toNat ≤ 31) ∨ c.toNat = 127)

/-- Embedding of sanitize_input (validation_utils.py lines 115-141): empty
input returns empty; otherwise strip, remove the control characters, truncate
to max_length, then collapse whitespace runs to single spaces. -/
def sanitize_input (input_text : List Char) (max_length : ℕ := 1000) : List Char :=
  if input_text.isEmpty then []
  else
    collapseWS false
      (((strip input_text).filter (fun c => !(isControlRemoved c))).take max_length)

/-- Calendar-field datetime, as the fields of a Python datetime. -/
structure PyDateTime where
  year : ℤ
  month : ℕ
  day : ℕ
  hour : ℕ
  minute : ℕ
  second : ℕ
  microsecond : ℕ
  deriving DecidableEq

/-- Gregorian leap-year rule used by Python's datetime module. -/
def isLeapYear (y : ℤ) : Bool :=
  decide ((y % 4 = 0 ∧ y % 100 ≠ 0) ∨ y % 400 = 0)

/-- Number of days of a month in a year, per the Gregorian calendar. -/
def daysInMonth (y : ℤ) (m : ℕ) : ℕ :=
  if m = 2 then (if isLeapYear y then 29 else 28)
  else if m = 4 ∨ m = 6 ∨ m = 9 ∨ m = 11 then 30
  else 31

/-- The calendar day preceding the given one, borrowing through month and
year boundaries. -/
def prevDay (y : ℤ) (m d : ℕ) : ℤ × ℕ × ℕ :=
  if 1 < d then (y, m, d - 1)
  else if 1 < m then (y, m - 1, daysInMonth y (m - 1))
  else (y - 1, 12, 31)

/-- Subtraction of timedelta(microseconds=1) from a datetime, as exact
field-borrowing arithmetic down to the previous-day case. -/
def subOneMicrosecond (dt : PyDateTime) : PyDateTime :=
  if 0 < dt.microsecond then { dt with microsecond := dt.microsecond - 1 }
  else if 0 < dt.second then { dt with second := dt.second - 1, microsecond := 999999 }
  else if 0 < dt.minute then
    { dt with minute := dt.minute - 1, second := 59, microsecond := 999999 }
  else if 0 < dt.hour then
    { dt with hour := dt.hour - 1, minute := 59, second := 59, microsecond := 999999 }
  else
    let p := prevDay dt.year dt.month dt.day
    { year := p.1, month := p.2.1, day := p.2.2, hour := 23, minute := 59, second := 59,
      microsecond := 999999 }

/-- The period = "month" branch of get_date_range (date_utils.py lines
118-121): start is the reference with day 1 and zeroed time fields; the end
is the first day of the following month (rolling the year over when the month
is December) minus one microsecond. -/
def get_date_range_month (reference_date : PyDateTime) : PyDateTime × PyDateTime :=
  let start : PyDateTime :=
    { reference_date with day := 1, hour := 0, minute := 0, second := 0, microsecond := 0 }
  let next_month : PyDateTime :=
    if start.month < 12 then { start with month := start.month + 1 }
    else { start with year := start.year + 1, month := 1 }
  (start, subOneMicrosecond next_month)

/-- Fuelled exact base-1024 floor logarithm: with fuel at least n this
computes the mathematical floor of log base 1024 of n, for n at least 1.  The
code's int(math.floor(math.log(n, 1024))) is the floor of a double-precision
quotient and can deviate from this exact value by one unit where the quotient
rounds across an integer (it is exactly 5.0 already at 1024^5 - 3), so the
exact function serves as the reference point of that one-unit envelope, not
as the model of the code's index computation itself. -/
def logb1024 : ℕ → ℕ → ℕ
  | 0, _ => 0
  | fuel + 1, n => if n < 1024 then 0 else logb1024 fuel (n / 1024) + 1

/-- Digit character of a value below ten. -/
def digitChar (n : ℕ) : Char := Char.ofNat (48 + n)

/-- Decimal digit characters of n, most significant first, by fuelled
structural recursion (fuel n + 1 suffices since n / 10 < n). -/
def natDigitsAux : ℕ → ℕ → List Char
  | 0, _ => []
  | fuel + 1, n =>
      if n < 10 then [digitChar n]
      else natDigitsAux fuel (n / 10) ++ [digitChar (n % 10)]

/-- Decimal digit characters of a natural number. -/
def natDigits (n : ℕ) : List Char := natDigitsAux (n + 1) n

/-- Python float repr of a nonnegative value that is an exact multiple of
1/100, as produced for a round(x, 2) result: the integer part, a dot, then
the hundredths with a trailing zero dropped (repr of a float prints the
shortest digits, and always at least one fractional digit). -/
def renderHundredths (q : ℚ) : List Char :=
  let ip := (Int.floor q).toNat
  let fr := (Int.floor ((q - Int.floor q) * 100)).toNat
  natDigits ip ++ '.' ::
    (if fr = 0 then ['0']
     else if fr % 10 = 0 then [digitChar (fr / 10)]
     else [digitChar (fr / 10), digitChar (fr % 10)])

/-- Embedding of format_file_size (format_utils.py lines 241-260),
parameterized by the unit-index function lg standing for the code's
int(math.floor(math.log(n, 1024))): that value is the floor of a
double-precision quotient, which near powers of 1024 need not equal the exact
floor logarithm (with CPython's libm the quotient is exactly 5.0 at sizes
1024^5 - 1, - 2 and - 3, so size_names[5] raises IndexError already below
1024^5); theorems therefore constrain lg only to lie within one unit above
the exact floor logarithm rather than fixing it.  0 maps to "0 B"; a negative
size makes math.log raise ValueError, and an index of 5 or more makes the
size_names[i] lookup raise IndexError, both modelled by none; otherwise the
size is divided by 1024^i for i the computed index, rounded to 2 decimals and
suffixed with the selected unit. -/
def format_file_size (lg : ℕ → ℕ) (size_bytes : ℤ) : Option (List Char) :=
  if size_bytes = 0 then some "0 B".toList
  else if size_bytes < 0 then none
  else
    let i := lg size_bytes.toNat
    if h : i < 5 then
      some (renderHundredths (round2 ((size_bytes : ℚ) / (1024 : ℚ) ^ i)) ++
        ' ' :: (["B", "KB", "MB", "GB", "TB"].get ⟨i, by simpa using h⟩).toList)
    else none

/-- Accumulator loop of Python str.split() with no separator: whitespace runs
separate words, empty pieces are discarded; the accumulator carries the
current word reversed. -/
def splitWSAux (acc : List Char) : List Char → List (List Char)
  | [] => if acc.isEmpty then [] else [acc.reverse]
  | c :: cs =>
      if isSpaceChar c then
        if acc.isEmpty then splitWSAux [] cs else acc.reverse :: splitWSAux [] cs
      else splitWSAux (c :: acc) cs

/-- Python str.split() with no separator. -/
def splitWS (l : List Char) : List (List Char) := splitWSAux [] l

/-- Python ' '.join(ws). -/
def joinSp : List (List Char) → List Char
  | [] => []
  | [w] => w
  | w :: ws => w ++ ' ' :: joinSp ws

/-- Python str.capitalize(): upper-case the first character and lower-case
the rest (ASCII model). -/
def capitalizeWord : List Char → List Char
  | [] => []
  | c :: rest => toUpperC c :: rest.map toLowerC

/-- The stop-word set of capitalize_words (format_utils.py lines 193-194). -/
def lowercase_words : List (List Char) :=
  ["a", "an", "and", "as", "at", "but", "by", "for", "in", "of", "on", "or",
   "the", "to", "up", "via"].map String.toList

/-- Enumerated loop of capitalize_words (format_utils.py lines 199-203): a
word is capitalized when it is first overall or not a stop-word. -/
def capwordsGo : ℕ → List (List Char) → List (List Char)
  | _, [] => []
  | i, w :: ws =>
      (if i = 0 ∨ w ∉ lowercase_words then capitalizeWord w else w) :: capwordsGo (i + 1) ws

/-- Embedding of capitalize_words (format_utils.py lines 179-205): lower-case
the text, split it into words, capitalize each word that is first or not a
stop-word, and join with single spaces. -/
def capitalize_words (text : List Char) : List Char :=
  if text.isEmpty then []
  else joinSp (capwordsGo 0 (splitWS (text.map toLowerC)))

theorem pyRound_intCast (n : ℤ) : pyRound (n : ℚ) = n := by
  simp [pyRound]

theorem round2_self (v : ℚ) (h : ∃ n : ℤ, v = n / 100) : round2 v = v := by
  obtain ⟨n, rfl⟩ := h
  have h100 : ((n : ℚ) / 100) * 100 = (n : ℚ) := by ring
  rw [round2, h100, pyRound_intCast]

theorem validate_amount_of_value (i : AmountInput) (v : ℚ)
    (hv : inputValue i = some v) : validate_amount i = amountChecks v := by
  cases i with
  | num q =>
      simp only [inputValue, Option.some.injEq] at hv
      rw [validate_amount, hv]
  | str s =>
      simp only [inputValue] at hv
      by_cases hc : (cleanedOf s).isEmpty
      · rw [if_pos hc] at hv; exact absurd hv (by simp)
      · rw [if_neg hc] at hv
        rw [validate_amount, if_neg hc, hv]

/-- C1: any numeric or numeric-string input whose value is positive, at most
999999999 and has at most two decimal digits is accepted, with success flag
true, the value unchanged by the 2-decimal rounding and no error message; an
input whose value is zero or negative is rejected with the message
"Amount must be greater than zero". -/
theorem validate_amount_spec (i : AmountInput) (v : ℚ)
    (hv : inputValue i = some v) :
    (0 < v → v ≤ 999999999 → (∃ n : ℤ, v = n / 100) →
        validate_amount i = (true, some v, none)) ∧
    (v ≤ 0 →
        validate_amount i
          = (false, none, some "Amount must be greater than zero".toList)) := by
  rw [validate_amount_of_value i v hv]
  constructor
  · intro h1 h2 h3
    rw [amountChecks, if_neg (not_le.mpr h1), if_neg (not_lt.mpr h2), round2_self v h3]
  · intro h1
    rw [amountChecks, if_pos h1]

/-- C1 witness: 1234.56 is accepted unchanged, and -5 is rejected with the
greater-than-zero message. -/
theorem validate_amount_spec_witness :
    validate_amount (.num (123456 / 100)) = (true, some (123456 / 100), none) ∧
    validate_amount (.num (-5))
      = (false, none, some "Amount must be greater than zero".toList) :=
  ⟨(validate_amount_spec (.num (123456 / 100)) (123456 / 100) rfl).1
      (by norm_num) (by norm_num) ⟨123456, by norm_num⟩,
   (validate_amount_spec (.num (-5)) (-5) rfl).2 (by norm_num)⟩

theorem amountChecks_invariant (v : ℚ) : outcomeInvariant (amountChecks v) := by
  unfold amountChecks outcomeInvariant
  split
  · simp
  · split <;> simp

/-- C7: each of the three 3-tuple validators returns an outcome in which the
error message is present exactly when the success flag is false and the
normalized value is present exactly when the success flag is true. -/
theorem validator_outcome_invariant (i : AmountInput) (d s sym : List Char) :
    outcomeInvariant (validate_amount i) ∧
    outcomeInvariant (validate_transaction_description d) ∧
    outcomeInvariant (validate_currency_amount s sym) := by
  refine ⟨?_, ?_, ?_⟩
  · cases i with
    | str t =>
        simp only [validate_amount]
        split
        · simp [outcomeInvariant]
        · split
          · simp [outcomeInvariant]
          · exact amountChecks_invariant _
    | num q => exact amountChecks_invariant q
  · unfold validate_transaction_description
    split
    · simp [outcomeInvariant]
    · split
      · simp [outcomeInvariant]
      · split <;> simp [outcomeInvariant]
  · unfold validate_currency_amount
    split
    · simp [outcomeInvariant]
    · split
      · simp [outcomeInvariant]
      · split
        · simp [outcomeInvariant]
        · split <;> simp [outcomeInvariant]

theorem strip_nil : strip [] = [] := rfl

theorem cleanCurrency_of_strip_nil (sym s : List Char) (h : strip s = []) :
    cleanCurrency sym s = [] := by
  unfold cleanCurrency
  rw [h]
  simp [strip]

theorem validate_currency_checks (s sym : List Char) (t : Bool × ℕ × ℤ)
    (hne : (s.isEmpty || (strip s).isEmpty) = false)
    (hp : parseDecimal (cleanCurrency sym s) = some t) :
    validate_currency_amount s sym =
      if decValue t ≤ 0 then
        (false, none, some "Amount must be greater than zero".toList)
      else if t.2.2 < -2 then
        (false, none, some "Amount cannot have more than 2 decimal places".toList)
      else (true, some (decValue t), none) := by
  rw [validate_currency_amount, hne, hp]
  rfl

/-- C8: validate_currency_amount parses the cleaned input (currency-symbol
stripping plus comma removal) as an exact Decimal and succeeds with the parsed
value exactly when that value is positive and the exact decimal exponent is at
least -2; "Rs. 1,234.567" is rejected for excess decimal places while
"Rs. 1,234.56" is accepted with value 1234.56. -/
theorem validate_currency_amount_spec :
    (∀ (s : List Char) (t : Bool × ℕ × ℤ),
        parseDecimal (cleanCurrency "Rs.".toList s) = some t →
        (validate_currency_amount s = (true, some (decValue t), none) ↔
          (0 < decValue t ∧ -2 ≤ t.2.2))) ∧
    validate_currency_amount "Rs. 1,234.567".toList
      = (false, none, some "Amount cannot have more than 2 decimal places".toList) ∧
    validate_currency_amount "Rs. 1,234.56".toList
      = (true, some (123456 / 100), none) := by
  refine ⟨?_, ?_, ?_⟩
  · intro s t hp
    have hse : strip s ≠ [] := by
      intro h
      rw [cleanCurrency_of_strip_nil _ _ h] at hp
      simp [parseDecimal, parseDecUnsigned] at hp
    have hs0 : s ≠ [] := by rintro rfl; exact hse rfl
    have hsne : (s.isEmpty || (strip s).isEmpty) = false := by
      simp [List.isEmpty_iff, hs0, hse]
    rw [validate_currency_checks s _ t hsne hp]
    constructor
    · intro h
      by_cases h1 : decValue t ≤ 0
      · rw [if_pos h1] at h; exact absurd h (by simp)
      · rw [if_neg h1] at h
        by_cases h2 : t.2.2 < -2
        · rw [if_pos h2] at h; exact absurd h (by simp)
        · exact ⟨not_le.mp h1, not_lt.mp h2⟩
    · rintro ⟨h1, h2⟩
      rw [if_neg (not_le.mpr h1), if_neg (not_lt.mpr h2)]
  · rw [validate_currency_checks _ _ (false, 1234567, -3) (by decide) (by decide),
      if_neg (by norm_num [decValue]), if_pos (by decide)]
  · rw [validate_currency_checks _ _ (false, 123456, -2) (by decide) (by decide),
      if_neg (by norm_num [decValue]), if_neg (by decide)]
    norm_num [decValue]

/-- C8 witness: the success-condition equivalence applied to the concrete
input "Rs. 12.34". -/
theorem validate_currency_amount_spec_witness :
    validate_currency_amount "Rs. 12.34".toList
      = (true, some (decValue (false, 1234, -2)), none) :=
  (validate_currency_amount_spec.1 "Rs. 12.34".toList (false, 1234, -2) (by decide)).mpr
    ⟨by norm_num [decValue], by norm_num⟩

/-- C2 (evaluation of the code at the divergent inputs): with substring
matching in dictionary insertion order, "day after tomorrow" is captured by
the earlier "tomorrow" entry and yields reference + 1 day, and "day before
yesterday" is captured by the earlier "yesterday" entry and yields
reference - 1 day; the two-day dictionary entries are unreachable. -/
theorem relative_match_two_day_phrases (reference_date : ℤ) :
    relative_match "day after tomorrow".toList reference_date
        = some (reference_date + dayUs) ∧
    relative_match "day before yesterday".toList reference_date
        = some (reference_date - dayUs) :=
  ⟨rfl, rfl⟩

/-- C4 counterexample: start Monday 23:00 and end Tuesday 01:00 of the epoch
week satisfy start ≤ end, yet the code counts 1 business day while the
inclusive calendar range Monday-Tuesday contains 2, because the loop steps in
whole 24-hour increments carrying start's time of day. -/
theorem calculate_business_days_counterexample :
    (82800000000 : ℤ) ≤ 90000000000 ∧
    calculate_business_days 82800000000 90000000000 = 1 ∧
    calendar_business_days 82800000000 90000000000 = 2 := by
  decide

theorem bdLoop_count (e : ℤ) : ∀ (n : ℕ) (s : ℤ), s + n * dayUs ≤ e →
    bdLoop (n + 1) s e
      = (List.range (n + 1)).countP
          (fun k : ℕ => decide (weekdayOf (s + (k : ℤ) * dayUs) < 5)) := by
  intro n
  induction n with
  | zero =>
      intro s h
      rw [bdLoop, if_pos (by simpa using h)]
      simp [List.countP, List.countP.go, bdLoop]
  | succ n ih =>
      intro s h
      have hd : (0 : ℤ) < dayUs := by norm_num [dayUs]
      have hs : s ≤ e := by
        have hnn : (0 : ℤ) ≤ (n + 1 : ℕ) * dayUs := by positivity
        linarith
      rw [bdLoop, if_pos hs]
      have hrec : s + dayUs + n * dayUs ≤ e := by push_cast at h ⊢; linarith
      rw [ih (s + dayUs) hrec]
      rw [show List.range (n + 1 + 1) = 0 :: List.map Nat.succ (List.range (n + 1)) from
          List.range_succ_eq_map _,
        List.countP_cons, List.countP_map]
      have hcong : ∀ k ∈ List.range (n + 1),
          (fun k : ℕ => decide (weekdayOf (s + dayUs + (k : ℤ) * dayUs) < 5)) k = true ↔
            ((fun k : ℕ => decide (weekdayOf (s + (k : ℤ) * dayUs) < 5)) ∘ Nat.succ) k
              = true := by
        intro k _
        have harg : s + dayUs + (k : ℤ) * dayUs = s + ((k + 1 : ℕ) : ℤ) * dayUs := by
          push_cast; ring
        simp [Function.comp, harg, Nat.succ_eq_add_one]
      rw [List.countP_congr hcong]
      simp [Nat.add_comm]

/-- C4 amended: when start ≤ end and start's time of day is at most end's,
the loop count equals the number of Monday-Friday calendar days in the
inclusive range; in general the loop steps in whole 24-hour increments from
start, so with a later start time the final calendar day is not counted. -/
theorem calculate_business_days_spec (s e : ℤ) (h : s ≤ e)
    (hf : s % dayUs ≤ e % dayUs) :
    calculate_business_days s e = calendar_business_days s e := by
  have hd : (0 : ℤ) < dayUs := by norm_num [dayUs]
  have hfd : ∀ a : ℤ, a.fdiv dayUs = a / dayUs := fun a => Int.fdiv_eq_ediv a hd.le
  have hdiff : (e - s) / dayUs = e / dayUs - s / dayUs := by
    have hs := Int.ediv_add_emod s dayUs
    have he := Int.ediv_add_emod e dayUs
    have hes : e - s = (e % dayUs - s % dayUs) + dayUs * (e / dayUs - s / dayUs) := by
      linarith
    rw [hes, Int.add_mul_ediv_left _ _ hd.ne.symm,
      Int.ediv_eq_zero_of_lt (by linarith)
        (by have := Int.emod_lt_of_pos e hd; have := Int.emod_nonneg s hd.ne.symm; linarith),
      zero_add]
  have hge : 0 ≤ (e - s) / dayUs := Int.ediv_nonneg (by linarith) hd.le
  have hmul : ((( e - s) / dayUs).toNat : ℤ) * dayUs ≤ e - s := by
    rw [Int.toNat_of_nonneg hge]
    exact Int.ediv_mul_le _ hd.ne.symm
  rw [calculate_business_days, hfd, bdLoop_count e _ s (by linarith)]
  rw [calendar_business_days, hfd, hfd, hdiff]
  refine List.countP_congr ?_
  intro k _
  have hwk : weekdayOf (s + k * dayUs) = (s / dayUs + k) % 7 := by
    rw [weekdayOf, hfd, Int.add_mul_ediv_right _ _ hd.ne.symm]
  rw [hwk]

/-- C4 witness: the whole epoch Monday through the following midnight. -/
theorem calculate_business_days_spec_witness :
    calculate_business_days 0 86400000000 = calendar_business_days 0 86400000000 :=
  calculate_business_days_spec 0 86400000000 (by norm_num) (by decide)

/-- C3 counterexample: for the clean 10-digit number 9876543210, stripping
non-digits from the formatted output yields 919876543210 — the country-code
digits followed by the original — and not the original ten digits. -/
theorem format_phone_number_counterexample :
    (format_phone_number "9876543210".toList).filter Char.isDigit
        = "919876543210".toList ∧
    (format_phone_number "9876543210".toList).filter Char.isDigit
        ≠ "9876543210".toList := by
  decide

theorem filter_isDigit_of_all (l : List Char) (h : ∀ a ∈ l, a.isDigit = true) :
    l.filter Char.isDigit = l :=
  List.filter_eq_self.mpr h

/-- C3 amended: for any clean 10-digit number, stripping non-digits from the
output of format_phone_number yields the digits of the country code ("91")
followed by the original ten digits, so dropping the country-code digits
re-derives the original. -/
theorem format_phone_number_spec (p : List Char) (hlen : p.length = 10)
    (hdig : p.all Char.isDigit = true) :
    (format_phone_number p).filter Char.isDigit = "91".toList ++ p := by
  have hall : ∀ a ∈ p, a.isDigit = true := List.all_eq_true.mp hdig
  have hne : p.isEmpty = false := by
    cases p with
    | nil => simp at hlen
    | cons a l => rfl
  have hfilter : p.filter Char.isDigit = p := filter_isDigit_of_all p hall
  have htake : (p.take 5).filter Char.isDigit = p.take 5 :=
    filter_isDigit_of_all _ (fun a ha => hall a (List.take_subset _ _ ha))
  have hdrop : (p.drop 5).filter Char.isDigit = p.drop 5 :=
    filter_isDigit_of_all _ (fun a ha => hall a (List.drop_subset _ _ ha))
  rw [format_phone_number, hne]
  simp only [Bool.false_eq_true, if_false, hfilter, hlen, if_pos rfl]
  simp [List.filter_append, htake, hdrop, List.filter_cons]

/-- C3 witness: the amended round-trip at the concrete number 9123456789. -/
theorem format_phone_number_spec_witness :
    (format_phone_number "9123456789".toList).filter Char.isDigit
      = "91".toList ++ "9123456789".toList :=
  format_phone_number_spec "9123456789".toList (by decide) (by decide)

theorem collapseWS_length (l : List Char) : ∀ b, (collapseWS b l).length ≤ l.length := by
  induction l with
  | nil => intro b; simp [collapseWS]
  | cons c cs ih =>
      intro b
      rw [collapseWS]
      split
      · split
        · exact le_trans (ih true) (by simp)
        · simpa using ih true
      · simpa using ih false

theorem collapseWS_mem (l : List Char) :
    ∀ b c, c ∈ collapseWS b l → c = ' ' ∨ c ∈ l := by
  induction l with
  | nil => intro b c h; simp [collapseWS] at h
  | cons a cs ih =>
      intro b c h
      rw [collapseWS] at h
      by_cases ha : isSpaceChar a = true
      · rw [if_pos ha] at h
        have h2 : c = ' ' ∨ c ∈ cs := by
          split at h
          · exact ih true c h
          · rcases List.mem_cons.mp h with he | hm
            · exact Or.inl he
            · exact ih true c hm
        rcases h2 with h1 | h1
        · exact Or.inl h1
        · exact Or.inr (List.mem_cons_of_mem a h1)
      · rw [if_neg ha] at h
        rcases List.mem_cons.mp h with he | hm
        · exact Or.inr (he ▸ List.mem_cons_self a cs)
        · rcases ih false c hm with h1 | h1
          · exact Or.inl h1
          · exact Or.inr (List.mem_cons_of_mem a h1)

/-- C9: sanitize_input returns at most max_length characters and none of the
control characters 0x00-0x08, 0x0B, 0x0C, 0x0E-0x1F, 0x7F survives: the
truncation happens before whitespace collapsing, and collapsing only ever
shrinks the text and introduces plain spaces. -/
theorem sanitize_input_spec (t : List Char) (m : ℕ) :
    (sanitize_input t m).length ≤ m ∧
    (sanitize_input t m).all (fun c => !(isControlRemoved c)) = true := by
  rw [sanitize_input]
  split
  · simp
  · constructor
    · exact le_trans (collapseWS_length _ false) (List.length_take_le _ _)
    · rw [List.all_eq_true]
      intro c hc
      rcases collapseWS_mem _ false c hc with rfl | hmem
      · decide
      · have hf := List.mem_filter.mp (List.take_subset _ _ hmem)
        exact hf.2

/-- C5: for any reference instant with a valid month, the "month" range of
get_date_range starts at the first day of the reference's month at
00:00:00.000000 and ends at the last day of that same month at
23:59:59.999999, with leap-year Februaries ending on the 29th and a December
reference rolling the year over in the next-month computation. -/
theorem get_date_range_month_spec (ref : PyDateTime)
    (hm1 : 1 ≤ ref.month) (hm2 : ref.month ≤ 12) :
    get_date_range_month ref
      = ({ ref with day := 1, hour := 0, minute := 0, second := 0, microsecond := 0 },
         { year := ref.year, month := ref.month, day := daysInMonth ref.year ref.month,
           hour := 23, minute := 59, second := 59, microsecond := 999999 }) := by
  simp only [get_date_range_month]
  by_cases h : ref.month < 12
  · rw [if_pos h]
    simp only [subOneMicrosecond, prevDay]
    rw [if_neg (by omega), if_neg (by omega), if_neg (by omega), if_neg (by omega),
      if_neg (by omega), if_pos (by omega : 1 < ref.month + 1)]
    simp [Nat.add_sub_cancel]
  · have h12 : ref.month = 12 := by omega
    rw [if_neg h]
    simp only [subOneMicrosecond, prevDay]
    rw [if_neg (by omega), if_neg (by omega), if_neg (by omega), if_neg (by omega),
      if_neg (by omega), if_neg (by omega)]
    simp [h12, daysInMonth]

/-- C5 witness: the month range of 15 Feb 2024 10:30 runs from 1 Feb 2024
midnight to 29 Feb 2024 23:59:59.999999. -/
theorem get_date_range_month_spec_witness :
    get_date_range_month ⟨2024, 2, 15, 10, 30, 0, 0⟩
      = (⟨2024, 2, 1, 0, 0, 0, 0⟩, ⟨2024, 2, 29, 23, 59, 59, 999999⟩) := by
  rw [get_date_range_month_spec ⟨2024, 2, 15, 10, 30, 0, 0⟩ (by decide) (by decide)]
  decide

/-- C6 counterexample: at input -1 format_file_size does not return a string:
math.log raises ValueError on a negative argument before the unit index is
ever computed (the index function is instantiated with the exact floor
logarithm here; the negative branch never consults it). -/
theorem format_file_size_counterexample :
    format_file_size (fun n => logb1024 n n) (-1) = none := rfl

theorem logb1024_lt : ∀ (fuel k n : ℕ), 1 ≤ k → n ≤ fuel → n < 1024 ^ k →
    logb1024 fuel n < k := by
  intro fuel
  induction fuel with
  | zero => intro k n hk _ _; simpa [logb1024] using hk
  | succ fuel ih =>
      intro k n hk hle hlt
      rw [logb1024]
      split
      · exact hk
      · rename_i hge
        push_neg at hge
        have hk2 : 2 ≤ k := by
          by_contra hcon
          push_neg at hcon
          interval_cases k
          simp [pow_one] at hlt
          omega
        have hn0 : 0 < n := by omega
        have hdle : n / 1024 ≤ fuel := by
          have := Nat.div_lt_self hn0 (by norm_num : 1 < 1024)
          omega
        have hdlt : n / 1024 < 1024 ^ (k - 1) := by
          rw [Nat.div_lt_iff_lt_mul (by norm_num : 0 < 1024)]
          calc n < 1024 ^ k := hlt
            _ = 1024 ^ (k - 1) * 1024 := by
                rw [← pow_succ]
                congr 1
                omega
        have := ih (k - 1) (n / 1024) (by omega) hdle hdlt
        omega

/-- C6 amended: for any unit-index function within one unit above the exact
base-1024 floor logarithm (the envelope of the code's double-precision
floor-log, whose rounding at unit boundaries is libm-dependent), every
integer size in [0, 1024^4) returns a string, 0 mapping to "0 B"; negative
sizes raise ValueError from math.log, and an index of 5 — which the verified
float computation already produces at size 1024^5 - 1 — raises IndexError
from the unit lookup, so the original "never fails for every integer input"
is wrong on both ends. -/
theorem format_file_size_spec :
    (∀ lg : ℕ → ℕ, (∀ n : ℕ, 1 ≤ n → lg n ≤ logb1024 n n + 1) →
      ∀ size : ℤ, 0 ≤ size → size < 1024 ^ 4 →
        (format_file_size lg size).isSome = true) ∧
    (∀ lg : ℕ → ℕ, lg (1024 ^ 5 - 1) = 5 →
      format_file_size lg ((1024 : ℤ) ^ 5 - 1) = none) := by
  constructor
  · intro lg hlg size h0 h4
    simp only [format_file_size]
    by_cases hz : size = 0
    · rw [if_pos hz]; rfl
    · rw [if_neg hz, if_neg (by omega)]
      have hpow : (1024 : ℤ) ^ 4 = 1099511627776 := by norm_num
      have hlt : size.toNat < 1024 ^ 4 := by
        have h4' : size < 1099511627776 := hpow ▸ h4
        have htn : size.toNat < 1099511627776 := by omega
        calc size.toNat < 1099511627776 := htn
          _ = 1024 ^ 4 := by norm_num
      have h1 : 1 ≤ size.toNat := by omega
      have hexact := logb1024_lt size.toNat 4 size.toNat (by norm_num) le_rfl hlt
      have hi : lg size.toNat < 5 := by
        have := hlg size.toNat h1
        omega
      rw [dif_pos hi]
      rfl
  · intro lg hlg
    simp only [format_file_size]
    rw [if_neg (by norm_num), if_neg (by norm_num)]
    have htn : ((1024 : ℤ) ^ 5 - 1).toNat = 1024 ^ 5 - 1 := by
      have hpow : (1024 : ℤ) ^ 5 = 1125899906842624 := by norm_num
      have hpn : (1024 : ℕ) ^ 5 = 1125899906842624 := by norm_num
      omega
    split
    · rename_i h
      rw [htn, hlg] at h
      exact absurd h (by norm_num)
    · rfl

/-- C6 witness: the exact floor logarithm is inside the one-unit envelope and
500 bytes yields a string under it; the constant index 5 observed from the
float computation at 1024^5 - 1 makes that size raise. -/
theorem format_file_size_spec_witness :
    (format_file_size (fun n => logb1024 n n) 500).isSome = true ∧
    format_file_size (fun _ => 5) ((1024 : ℤ) ^ 5 - 1) = none :=
  ⟨format_file_size_spec.1 (fun n => logb1024 n n)
      (fun n _ => Nat.le_succ (logb1024 n n)) 500 (by norm_num) (by norm_num),
   format_file_size_spec.2 (fun _ => 5) rfl⟩

theorem char_toNat_ofNat (n : ℕ) (h : n < 55296) : (Char.ofNat n).toNat = n := by
  rw [Char.ofNat, dif_pos (Or.inl h)]
  rfl

theorem toLowerC_toLowerC (c : Char) : toLowerC (toLowerC c) = toLowerC c := by
  unfold toLowerC
  split
  · rename_i h
    rw [if_neg (by rw [char_toNat_ofNat (c.toNat + 32) (by omega)]; omega)]
  · rfl

theorem toLowerC_toUpperC (c : Char) : toLowerC (toUpperC c) = toLowerC c := by
  unfold toUpperC toLowerC
  split
  · rename_i h
    have hn : (Char.ofNat (c.toNat - 32)).toNat = c.toNat - 32 :=
      char_toNat_ofNat _ (by omega)
    rw [if_pos (by rw [hn]; omega), hn,
      show c.toNat - 32 + 32 = c.toNat by omega, Char.ofNat_toNat,
      if_neg (by omega)]
  · rfl

theorem isSpaceChar_toUpperC (c : Char) (h : isSpaceChar c = false) :
    isSpaceChar (toUpperC c) = false := by
  unfold toUpperC
  split
  · rename_i hr
    unfold isSpaceChar
    rw [char_toNat_ofNat _ (by omega)]
    simp only [decide_eq_false_iff_not]
    omega
  · exact h

theorem isSpaceChar_toLowerC (c : Char) (h : isSpaceChar c = false) :
    isSpaceChar (toLowerC c) = false := by
  unfold toLowerC
  split
  · rename_i hr
    unfold isSpaceChar
    rw [char_toNat_ofNat _ (by omega)]
    simp only [decide_eq_false_iff_not]
    omega
  · exact h

theorem map_eq_self_of_mem {f : Char → Char} :
    ∀ (l : List Char), (∀ c ∈ l, f c = c) → l.map f = l := by
  intro l h
  induction l with
  | nil => rfl
  | cons a t ih =>
      rw [List.map_cons, h a (List.mem_cons_self a t),
        ih (fun c hc => h c (List.mem_cons_of_mem _ hc))]

theorem splitWSAux_words : ∀ (l acc : List Char),
    (∀ c ∈ acc, isSpaceChar c = false) →
    ∀ w ∈ splitWSAux acc l,
      w ≠ [] ∧ ∀ c ∈ w, isSpaceChar c = false ∧ (c ∈ acc ∨ c ∈ l) := by
  intro l
  induction l with
  | nil =>
      intro acc hacc w hw
      rw [splitWSAux] at hw
      split at hw
      · simp at hw
      · rename_i hne
        have hwe : w = acc.reverse := by simpa using hw
        subst hwe
        refine ⟨by simpa using (by simpa using hne : ¬acc = []), ?_⟩
        intro c hc
        have hc' : c ∈ acc := by simpa using hc
        exact ⟨hacc c hc', Or.inl hc'⟩
  | cons a l ih =>
      intro acc hacc w hw
      rw [splitWSAux] at hw
      by_cases ha : isSpaceChar a = true
      · rw [if_pos ha] at hw
        have hofl : w ∈ splitWSAux [] l →
            w ≠ [] ∧ ∀ c ∈ w, isSpaceChar c = false ∧ (c ∈ acc ∨ c ∈ a :: l) := by
          intro hm
          have hres := ih [] (by simp) w hm
          exact ⟨hres.1, fun c hc => ⟨(hres.2 c hc).1,
            Or.inr (List.mem_cons_of_mem a ((hres.2 c hc).2.resolve_left (by simp)))⟩⟩
        split at hw
        · exact hofl hw
        · rcases List.mem_cons.mp hw with he | hm
          · subst he
            rename_i hne
            refine ⟨by simpa using (by simpa using hne : ¬acc = []), ?_⟩
            intro c hc
            have hc' : c ∈ acc := by simpa using hc
            exact ⟨hacc c hc', Or.inl hc'⟩
          · exact hofl hm
      · rw [if_neg ha] at hw
        have hacc' : ∀ c ∈ a :: acc, isSpaceChar c = false := by
          intro c hc
          rcases List.mem_cons.mp hc with rfl | h'
          · simpa using ha
          · exact hacc c h'
        have hres := ih (a :: acc) hacc' w hw
        refine ⟨hres.1, fun c hc => ⟨(hres.2 c hc).1, ?_⟩⟩
        rcases (hres.2 c hc).2 with h1 | h1
        · rcases List.mem_cons.mp h1 with rfl | h2
          · exact Or.inr (List.mem_cons_self _ _)
          · exact Or.inl h2
        · exact Or.inr (List.mem_cons_of_mem a h1)

theorem splitWSAux_append : ∀ (w : List Char), (∀ c ∈ w, isSpaceChar c = false) →
    ∀ (acc t : List Char), splitWSAux acc (w ++ t) = splitWSAux (w.reverse ++ acc) t := by
  intro w
  induction w with
  | nil => intro _ acc t; simp
  | cons c w' ih =>
      intro hw acc t
      have hc : isSpaceChar c = false := hw c (List.mem_cons_self _ _)
      rw [List.cons_append, splitWSAux, if_neg (by simp [hc]),
        ih (fun x hx => hw x (List.mem_cons_of_mem _ hx)) (c :: acc) t]
      simp

theorem joinSp_single (w : List Char) : joinSp [w] = w := rfl

theorem joinSp_cons_cons (w w2 : List Char) (ws : List (List Char)) :
    joinSp (w :: w2 :: ws) = w ++ ' ' :: joinSp (w2 :: ws) := rfl

theorem splitWS_joinSp : ∀ (ws : List (List Char)),
    (∀ w ∈ ws, w ≠ [] ∧ ∀ c ∈ w, isSpaceChar c = false) →
    splitWS (joinSp ws) = ws := by
  intro ws
  induction ws with
  | nil => intro _; rfl
  | cons w ws ih =>
      intro h
      have hw := h w (List.mem_cons_self _ _)
      cases ws with
      | nil =>
          show splitWSAux [] (joinSp [w]) = [w]
          have hW := splitWSAux_append w hw.2 [] []
          rw [List.append_nil] at hW
          rw [joinSp_single, hW, splitWSAux,
            if_neg (by simp [List.isEmpty_iff]; exact hw.1)]
          simp
      | cons w2 ws2 =>
          show splitWSAux [] (joinSp (w :: w2 :: ws2)) = w :: w2 :: ws2
          rw [joinSp_cons_cons, splitWSAux_append w hw.2 [] (' ' :: joinSp (w2 :: ws2)),
            splitWSAux, if_pos (by decide), if_neg (by simp [List.isEmpty_iff]; exact hw.1)]
          have hrest := ih (fun w' h' => h w' (List.mem_cons_of_mem _ h'))
          rw [splitWS] at hrest
          rw [hrest]
          simp

theorem map_toLowerC_joinSp : ∀ ws : List (List Char),
    (joinSp ws).map toLowerC = joinSp (ws.map (List.map toLowerC)) := by
  intro ws
  induction ws with
  | nil => rfl
  | cons w ws ih =>
      cases ws with
      | nil => rfl
      | cons w2 ws2 =>
          rw [joinSp_cons_cons, List.map_append, List.map_cons,
            show toLowerC ' ' = ' ' from rfl, ih]
          rfl

theorem map_toLowerC_capitalizeWord (w : List Char) (hw : ∀ c ∈ w, toLowerC c = c) :
    (capitalizeWord w).map toLowerC = w := by
  cases w with
  | nil => rfl
  | cons c r =>
      rw [capitalizeWord, List.map_cons, toLowerC_toUpperC, hw c (List.mem_cons_self _ _),
        List.map_map, show List.map (toLowerC ∘ toLowerC) r = List.map toLowerC r from
          List.map_congr_left (fun x _ => toLowerC_toLowerC x),
        map_eq_self_of_mem r (fun x hx => hw x (List.mem_cons_of_mem _ hx))]

theorem capwordsGo_lower : ∀ (ws : List (List Char)) (i : ℕ),
    (∀ w ∈ ws, ∀ c ∈ w, toLowerC c = c) →
    (capwordsGo i ws).map (List.map toLowerC) = ws := by
  intro ws
  induction ws with
  | nil => intro i _; rfl
  | cons w ws ih =>
      intro i h
      rw [capwordsGo, List.map_cons]
      congr 1
      · split
        · exact map_toLowerC_capitalizeWord w (h w (List.mem_cons_self _ _))
        · exact map_eq_self_of_mem w (h w (List.mem_cons_self _ _))
      · exact ih (i + 1) (fun w' h' c hc => h w' (List.mem_cons_of_mem _ h') c hc)

theorem capitalizeWord_words (w : List Char) (h1 : w ≠ [])
    (h2 : ∀ c ∈ w, isSpaceChar c = false) :
    capitalizeWord w ≠ [] ∧ ∀ c ∈ capitalizeWord w, isSpaceChar c = false := by
  cases w with
  | nil => exact absurd rfl h1
  | cons c r =>
      rw [capitalizeWord]
      refine ⟨by simp, ?_⟩
      intro x hx
      rcases List.mem_cons.mp hx with rfl | hxr
      · exact isSpaceChar_toUpperC c (h2 c (List.mem_cons_self _ _))
      · rcases List.mem_map.mp hxr with ⟨y, hy, rfl⟩
        exact isSpaceChar_toLowerC y (h2 y (List.mem_cons_of_mem _ hy))

theorem capwordsGo_words : ∀ (ws : List (List Char)) (i : ℕ),
    (∀ w ∈ ws, w ≠ [] ∧ ∀ c ∈ w, isSpaceChar c = false) →
    ∀ w' ∈ capwordsGo i ws, w' ≠ [] ∧ ∀ c ∈ w', isSpaceChar c = false := by
  intro ws
  induction ws with
  | nil => intro i _ w' hw'; simp [capwordsGo] at hw'
  | cons w ws ih =>
      intro i h w' hw'
      rw [capwordsGo] at hw'
      rcases List.mem_cons.mp hw' with he | hm
      · subst he
        split
        · exact capitalizeWord_words w (h w (List.mem_cons_self _ _)).1
            (h w (List.mem_cons_self _ _)).2
        · exact h w (List.mem_cons_self _ _)
      · exact ih (i + 1) (fun x hx => h x (List.mem_cons_of_mem _ hx)) w' hm

theorem lower_closed_of_mem_map (t : List Char) (c : Char) (h : c ∈ t.map toLowerC) :
    toLowerC c = c := by
  rcases List.mem_map.mp h with ⟨x, _, rfl⟩
  exact toLowerC_toLowerC x

/-- C10: capitalize_words is idempotent: applying it a second time returns
the first application's output unchanged. -/
theorem capitalize_words_idem (t : List Char) :
    capitalize_words (capitalize_words t) = capitalize_words t := by
  by_cases ht : t.isEmpty = true
  · have h0 : capitalize_words t = [] := by rw [capitalize_words, if_pos ht]
    rw [h0]
    rfl
  · have hft : capitalize_words t = joinSp (capwordsGo 0 (splitWS (t.map toLowerC))) := by
      rw [capitalize_words, if_neg ht]
    rw [hft]
    have hWfacts := fun w hw => splitWSAux_words (t.map toLowerC) [] (by simp) w hw
    have hWnice : ∀ w ∈ splitWS (t.map toLowerC),
        w ≠ [] ∧ ∀ c ∈ w, isSpaceChar c = false :=
      fun w hw => ⟨(hWfacts w hw).1, fun c hc => ((hWfacts w hw).2 c hc).1⟩
    have hWlower : ∀ w ∈ splitWS (t.map toLowerC), ∀ c ∈ w, toLowerC c = c := by
      intro w hw c hc
      rcases ((hWfacts w hw).2 c hc).2 with hm | hm
      · simp at hm
      · exact lower_closed_of_mem_map t c hm
    by_cases hJ : (joinSp (capwordsGo 0 (splitWS (t.map toLowerC)))).isEmpty = true
    · rw [capitalize_words, if_pos hJ]
      exact (List.isEmpty_iff.mp hJ).symm
    · rw [capitalize_words, if_neg hJ, map_toLowerC_joinSp,
        capwordsGo_lower _ 0 hWlower, splitWS_joinSp _ hWnice]

end PocketPulse
